import Mathlib

/- Verification development for the agentic workflow engine:
   tool registry and dispatch (tools/tool_manager.py), tool
   recommendation and the fallback chain (enhanced_orchestrator.py,
   supervisor.py), the decision lifecycle and severity policy
   (neo4j_connector.py), adaptive edge weights, and the probabilistic
   workflow traversal. -/

namespace Agentic

/-- Result record returned by a tool invocation; the dispatcher's
not-found path builds the dict with keys success and error
(tools/tool_manager.py, execute). -/
structure ToolResult where
  success : Bool
  error : String
deriving DecidableEq, Repr

/-- Outcome of evaluating a piece of Python code: either a returned
value or a raised exception carrying its message. -/
inductive PyResult (α : Type) where
  | ok (val : α)
  | raises (msg : String)
deriving DecidableEq, Repr

/-- Registry entry built by ToolManager.load_tools: the raw config
dict together with the instance slot, which load_tools always sets to
None ("register minimal placeholder if no class available"). The
stored value is a plain dict, not a tool object. -/
structure ToolEntry where
  config : List (String × String)
  inst : Option Unit
deriving DecidableEq, Repr

/-- ToolManager.load_tools over an already-parsed config list: every
entry that is a dict with a name is registered as the placeholder
record with instance None; entries without a name are skipped. -/
def load_tools (cfg : List (Option String × List (String × String))) :
    List (String × ToolEntry) :=
  cfg.filterMap fun c =>
    match c.1 with
    | none => none
    | some name => some (name, ⟨c.2, none⟩)

/-- ToolManager.execute: a missing tool name returns a failure record;
a registered name retrieves the stored placeholder dict and evaluates
tool.execute(input_data) on it — a plain dict has no execute
attribute, so the attribute access raises AttributeError. -/
def ToolManager.execute (tools : List (String × ToolEntry)) (name : String) :
    PyResult ToolResult :=
  match tools.lookup name with
  | none => PyResult.ok ⟨false, "Tool " ++ name ++ " not found"⟩
  | some _ => PyResult.raises "AttributeError: dict object has no attribute execute"

/-- Outgoing edge record as loaded by load_workflow: target may be
missing and probability may be missing. -/
structure EdgeRec where
  target : Option String
  probability : Option Rat
deriving DecidableEq, Repr

/-- float(edge.get("probability") or 0.0): a missing (or zero)
probability reads as 0. -/
def edgeProb (e : EdgeRec) : Rat :=
  e.probability.getD 0

/-- Agent node record: id, display name, type tag, outgoing edges.
name and type are read with dict .get and may be absent. -/
structure AgentNode where
  id : String
  name : Option String
  type : Option String
  next : List EdgeRec
deriving DecidableEq, Repr

/-- Body of EnhancedOrchestrator.recommend_tool after the candidate
list has been fixed: type-based preference rules over the candidate
list; the final indexing available[0] is modelled with head?, so a
raised IndexError would surface as none. -/
def recommendFrom (available : List String) (agent : AgentNode) : Option String :=
  if agent.type == some "validation" then
    if available.contains "API_Tool" then some "API_Tool" else available.head?
  else if agent.type == some "execution" then
    if ((agent.name.getD "").toLower == "file_upload") && available.contains "Selenium_RPA_Tool" then
      some "Selenium_RPA_Tool"
    else if available.contains "RPA_Tool" then some "RPA_Tool" else available.head?
  else if agent.type == some "audit" then
    if available.contains "API_Tool" then some "API_Tool" else available.head?
  else
    available.head?

/-- EnhancedOrchestrator.recommend_tool: when the ToolManager registry
is empty the built-in candidate list is silently substituted before
the preference rules run. -/
def recommend_tool (registry : List String) (agent : AgentNode) : Option String :=
  recommendFrom (if registry.isEmpty then ["API_Tool", "RPA_Tool"] else registry) agent

/-- ON CREATE branch of Neo4jConnector.add_fallback_edge:
n.probability is set to the similarity score. -/
def addFallbackEdgeCreate (score : Rat) : Rat := score

/-- ON MATCH branch of Neo4jConnector.add_fallback_edge:
n.probability = n.probability + score, with no clamping. -/
def addFallbackEdgeMatch (p score : Rat) : Rat := p + score

/-- Success branch of Neo4jConnector.update_edge_feedback:
n.probability = n.probability + reinforce, with no clamping. -/
def reinforceEdge (p reinforce : Rat) : Rat := p + reinforce

/-- Failure branch of Neo4jConnector.update_edge_feedback:
n.probability = n.probability * (1 - decay). -/
def decayEdge (p decay : Rat) : Rat := p * (1 - decay)

/-- Neo4jConnector.decay_edges sweep applied to one learned edge:
n.probability = n.probability * (1 - decay_rate). -/
def decayAllLearned (p rate : Rat) : Rat := p * (1 - rate)

/-- A nonempty candidate list always yields a recommendation: every
branch of the rule table either returns a literal tool name or the
head of the list. -/
theorem recommendFrom_isSome (available : List String) (agent : AgentNode)
    (h : available ≠ []) : (recommendFrom available agent).isSome = true := by
  cases available with
  | nil => exact absurd rfl h
  | cons a l =>
    unfold recommendFrom
    repeat' split
    all_goals simp

/-- C10: recommend_tool is total — for every agent and registry it
returns some tool name — and on an empty registry it applies the rules
to the built-in candidates API_Tool and RPA_Tool, returning one of
them, a name registered nowhere. -/
theorem c10_recommend_tool_total_with_builtin_fallback :
    (∀ (registry : List String) (agent : AgentNode),
        (recommend_tool registry agent).isSome = true)
    ∧ (∀ agent : AgentNode,
        recommend_tool [] agent = recommendFrom ["API_Tool", "RPA_Tool"] agent)
    ∧ (∀ agent : AgentNode, ∃ t,
        recommend_tool [] agent = some t
        ∧ t ∈ ["API_Tool", "RPA_Tool"] ∧ t ∉ ([] : List String)) := by
  refine ⟨?_, ?_, ?_⟩
  · intro registry agent
    unfold recommend_tool
    apply recommendFrom_isSome
    cases registry <;> simp
  · intro agent
    rfl
  · intro agent
    have h : recommend_tool [] agent = recommendFrom ["API_Tool", "RPA_Tool"] agent := rfl
    rw [h]
    unfold recommendFrom
    repeat' split
    all_goals simp_all

/-- C5 (code bug): the dispatcher raises on any registered tool.
load_tools stores a plain placeholder dict for API_Tool, and
ToolManager.execute evaluates .execute on that dict, raising
AttributeError instead of returning a failure record; only the
absent-tool path returns the documented failure record. -/
theorem c5_execute_raises_on_registered_tool :
    ToolManager.execute (load_tools [(some "API_Tool", [])]) "API_Tool"
      = PyResult.raises "AttributeError: dict object has no attribute execute"
    ∧ ToolManager.execute (load_tools [(some "API_Tool", [])]) "Missing_Tool"
      = PyResult.ok ⟨false, "Tool Missing_Tool not found"⟩ := by
  constructor <;> rfl

/-- C9 counterexample: an edge probability of 1 (inside [0,1]) pushed
through the success-reinforcement update with amount 1/10 (inside
[0,1]) leaves the unit interval: the update is an unclamped
addition. -/
theorem c9_counterexample_reinforce_exceeds_one :
    reinforceEdge 1 (1/10) = 11/10 ∧ ¬ (reinforceEdge 1 (1/10) ≤ 1) := by
  constructor <;> norm_num [reinforceEdge]

/-- C9 amended: for probabilities and arguments in [0,1], the
multiplicative decay updates and the ON CREATE write stay inside
[0,1], and all updates preserve nonnegativity, but the additive
reinforcement and ON MATCH strengthening are only bounded by 2 and can
exceed 1. -/
theorem c9_edge_weight_bounds (p a : Rat)
    (hp0 : 0 ≤ p) (hp1 : p ≤ 1) (ha0 : 0 ≤ a) (ha1 : a ≤ 1) :
    (0 ≤ decayEdge p a ∧ decayEdge p a ≤ 1)
    ∧ (0 ≤ decayAllLearned p a ∧ decayAllLearned p a ≤ 1)
    ∧ (0 ≤ addFallbackEdgeCreate a ∧ addFallbackEdgeCreate a ≤ 1)
    ∧ (0 ≤ addFallbackEdgeMatch p a ∧ addFallbackEdgeMatch p a ≤ 2)
    ∧ (0 ≤ reinforceEdge p a ∧ reinforceEdge p a ≤ 2) := by
  unfold decayEdge decayAllLearned addFallbackEdgeCreate addFallbackEdgeMatch reinforceEdge
  refine ⟨⟨?_, ?_⟩, ⟨?_, ?_⟩, ⟨ha0, ha1⟩, ⟨?_, ?_⟩, ⟨?_, ?_⟩⟩ <;> nlinarith

/-- C9 witness: the bounds theorem applied at probability 1/2 and
amount 1/10. -/
theorem c9_edge_weight_bounds_witness :
    (0 ≤ decayEdge (1/2) (1/10) ∧ decayEdge (1/2) (1/10) ≤ 1)
    ∧ (0 ≤ decayAllLearned (1/2) (1/10) ∧ decayAllLearned (1/2) (1/10) ≤ 1)
    ∧ (0 ≤ addFallbackEdgeCreate (1/10) ∧ addFallbackEdgeCreate (1/10) ≤ 1)
    ∧ (0 ≤ addFallbackEdgeMatch (1/2) (1/10) ∧ addFallbackEdgeMatch (1/2) (1/10) ≤ 2)
    ∧ (0 ≤ reinforceEdge (1/2) (1/10) ∧ reinforceEdge (1/2) (1/10) ≤ 2) :=
  c9_edge_weight_bounds (1/2) (1/10) (by norm_num) (by norm_num) (by norm_num) (by norm_num)

/-- Outcome of one execute_with_fallback call: the returned tool
result, the resolve_decision calls issued (choice, status,
resolved_by), and the add_fallback_edge writes issued. -/
structure DispatchOutcome where
  result : ToolResult
  resolutions : List (String × String × String)
  edgesWritten : List (String × Rat)
deriving DecidableEq, Repr

/-- Deterministic fallback loop of execute_with_fallback: walk the
registry in order, skip the recommended tool, invoke each remaining
tool, stop at the first success. -/
def tryFallbacks (exec : String → ToolResult) :
    List String → String → Option (String × ToolResult)
  | [], _ => none
  | f :: fs, rec =>
    if f ≠ rec then
      if (exec f).success then some (f, exec f) else tryFallbacks exec fs rec
    else tryFallbacks exec fs rec

/-- EnhancedOrchestrator.execute_with_fallback: invoke the
recommendation; on failure walk the registry; on exhaustion consult
the similarity index when one exists (vector carries its best match
and distance, none when the index is absent); if the vector tool also
fails, or no index exists, resolve with choice default, status
completed, actor system and return the recommended tool's failure
result. -/
def execute_with_fallback (exec : String → ToolResult) (registry : List String)
    (recommended : String) (vector : Option (String × Rat)) : DispatchOutcome :=
  let result := exec recommended
  if result.success then
    ⟨result, [(recommended, "approved", "policy")], []⟩
  else
    match tryFallbacks exec registry recommended with
    | some (name, r) => ⟨r, [(name, "approved", "fallback")], []⟩
    | none =>
      match vector with
      | some (best, dist) =>
        let vr := exec best
        if vr.success then
          ⟨vr, [(best, "approved", "vector")], [(best, dist)]⟩
        else
          ⟨result, [("default", "completed", "system")], []⟩
      | none => ⟨result, [("default", "completed", "system")], []⟩

/-- Supervisor.execute_with_fallback: same chain, but the similarity
index always exists, and the everything-failed path resolves with
choice equal to the recommended tool, status rejected, actor system,
returning the recommended tool's failure result. -/
def supervisorExecuteWithFallback (exec : String → ToolResult) (registry : List String)
    (recommended : String) (vector : String × Rat) : DispatchOutcome :=
  let result := exec recommended
  if result.success then
    ⟨result, [(recommended, "approved", "policy")], []⟩
  else
    match tryFallbacks exec registry recommended with
    | some (name, r) => ⟨r, [(name, "approved", "fallback")], []⟩
    | none =>
      let vr := exec vector.1
      if vr.success then
        ⟨vr, [(vector.1, "approved", "vector")], [(vector.1, vector.2)]⟩
      else
        ⟨result, [(recommended, "rejected", "system")], []⟩

/-- When the registry splits as pre ++ f :: post with every
non-recommended tool of pre failing and f a succeeding non-recommended
tool, the fallback loop stops exactly at f. -/
theorem tryFallbacks_first_success (exec : String → ToolResult)
    (pre post : List String) (f rec : String)
    (hpre : ∀ g ∈ pre, g ≠ rec → (exec g).success = false)
    (hf : f ≠ rec) (hfs : (exec f).success = true) :
    tryFallbacks exec (pre ++ f :: post) rec = some (f, exec f) := by
  induction pre with
  | nil => simp [tryFallbacks, hf, hfs]
  | cons g gs ih =>
    by_cases hg : g = rec
    · simp [tryFallbacks, hg]
      exact ih fun x hx hxr => hpre x (List.mem_cons_of_mem g hx) hxr
    · have hgf : (exec g).success = false := hpre g (List.mem_cons_self g gs) hg
      simp [tryFallbacks, hg, hgf]
      exact ih fun x hx hxr => hpre x (List.mem_cons_of_mem g hx) hxr

/-- When every non-recommended registry tool fails, the fallback loop
finds nothing. -/
theorem tryFallbacks_all_fail (exec : String → ToolResult)
    (registry : List String) (rec : String)
    (hall : ∀ g ∈ registry, g ≠ rec → (exec g).success = false) :
    tryFallbacks exec registry rec = none := by
  induction registry with
  | nil => rfl
  | cons g gs ih =>
    by_cases hg : g = rec
    · simp [tryFallbacks, hg]
      exact ih fun x hx hxr => hall x (List.mem_cons_of_mem g hx) hxr
    · have hgf : (exec g).success = false := hall g (List.mem_cons_self g gs) hg
      simp [tryFallbacks, hg, hgf]
      exact ih fun x hx hxr => hall x (List.mem_cons_of_mem g hx) hxr

/-- C3: when the recommended tool fails, execute_with_fallback invokes
the remaining registered tools in registry order and stops at the
first success f, resolving the decision as approved with actor
fallback and returning f's result. -/
theorem c3_fallback_first_success (exec : String → ToolResult)
    (pre post : List String) (f recommended : String) (vector : Option (String × Rat))
    (hrec : (exec recommended).success = false)
    (hpre : ∀ g ∈ pre, g ≠ recommended → (exec g).success = false)
    (hf : f ≠ recommended) (hfs : (exec f).success = true) :
    execute_with_fallback exec (pre ++ f :: post) recommended vector
      = ⟨exec f, [(f, "approved", "fallback")], []⟩ := by
  unfold execute_with_fallback
  rw [tryFallbacks_first_success exec pre post f recommended hpre hf hfs]
  simp [hrec]

/-- C3 witness: registry X then Y, X always fails, Y always succeeds,
recommendation X — the call returns Y's result with actor fallback. -/
theorem c3_fallback_first_success_witness :
    execute_with_fallback
        (fun n => if n == "Y" then ⟨true, ""⟩ else ⟨false, "boom"⟩)
        ["X", "Y"] "X" none
      = ⟨⟨true, ""⟩, [("Y", "approved", "fallback")], []⟩ := by
  have h := c3_fallback_first_success
    (fun n => if n == "Y" then ⟨true, ""⟩ else ⟨false, "boom"⟩)
    ["X"] [] "Y" "X" none rfl
    (by intro g hg hgr; simp at hg; simp [hg] at hgr)
    (by decide) rfl
  simpa using h

/-- The tool behaviour that always reports failure. -/
def failExec : String → ToolResult := fun _ => ⟨false, "fail"⟩

/-- C4 counterexample: with every tool failing (recommended X,
fallback Y, vector match Y), the async orchestrator resolves the
decision with choice default, status completed, actor system — not
status rejected — and returns the recommended tool's failure
result. -/
theorem c4_counterexample_completed_not_rejected :
    execute_with_fallback failExec ["X", "Y"] "X" (some ("Y", 1))
      = ⟨⟨false, "fail"⟩, [("default", "completed", "system")], []⟩
    ∧ "completed" ≠ "rejected" := by
  constructor
  · rfl
  · decide

/-- C4 amended: when the recommended tool, every registry fallback and
the vector-selected tool all fail (or no index exists), the decision
is resolved with actor system and the recommended tool's failure
result — the first failure — is returned; the status is completed
(choice default) in EnhancedOrchestrator and rejected (choice the
recommended tool) in Supervisor. -/
theorem c4_all_fail_resolution (exec : String → ToolResult)
    (registry : List String) (recommended vtool : String) (dist : Rat)
    (hrec : (exec recommended).success = false)
    (hall : ∀ g ∈ registry, (exec g).success = false)
    (hv : (exec vtool).success = false) :
    execute_with_fallback exec registry recommended (some (vtool, dist))
      = ⟨exec recommended, [("default", "completed", "system")], []⟩
    ∧ execute_with_fallback exec registry recommended none
      = ⟨exec recommended, [("default", "completed", "system")], []⟩
    ∧ supervisorExecuteWithFallback exec registry recommended (vtool, dist)
      = ⟨exec recommended, [(recommended, "rejected", "system")], []⟩ := by
  have ht : tryFallbacks exec registry recommended = none :=
    tryFallbacks_all_fail exec registry recommended fun g hg _ => hall g hg
  refine ⟨?_, ?_, ?_⟩ <;>
    simp only [execute_with_fallback, supervisorExecuteWithFallback, ht] <;>
    simp [hrec, hv]

/-- C4 amended witness: the all-fail resolution applied to the
concrete registry X, Y with the always-failing behaviour. -/
theorem c4_all_fail_resolution_witness :
    execute_with_fallback failExec ["X", "Y"] "X" (some ("Y", 1))
      = ⟨failExec "X", [("default", "completed", "system")], []⟩
    ∧ execute_with_fallback failExec ["X", "Y"] "X" none
      = ⟨failExec "X", [("default", "completed", "system")], []⟩
    ∧ supervisorExecuteWithFallback failExec ["X", "Y"] "X" ("Y", 1)
      = ⟨failExec "X", [("X", "rejected", "system")], []⟩ :=
  c4_all_fail_resolution failExec ["X", "Y"] "X" "Y" 1 rfl
    (by intro g hg; rfl) rfl

/-- Decision node as persisted by save_decision / mutated by
resolve_decision; created_at models the creation timestamp used by the
queue ordering. -/
structure Decision where
  id : String
  agent : String
  step : String
  recommendation : String
  severity : String
  status : String
  choice : String
  resolved_by : String
  created_at : Nat
deriving DecidableEq, Repr

/-- Field update performed by the Cypher SET clause of
resolve_decision: status, choice and resolved_by are written, all
other fields kept. -/
def setResolved (d : Decision) (choice status resolved_by : String) : Decision :=
  ⟨d.id, d.agent, d.step, d.recommendation, d.severity, status, choice, resolved_by, d.created_at⟩

/-- Neo4jConnector.resolve_decision: MATCH the decision by id and SET
status, choice, resolved_by — unconditionally, with no check that the
current status is still pending. -/
def resolve_decision (store : List Decision) (id choice status resolved_by : String) :
    List Decision :=
  store.map fun d => if d.id = id then setResolved d choice status resolved_by else d

/-- Severity policy rule as read from severity_policy.yaml:
severity_levels maps a severity to its rules, of which auto_approve is
consulted. -/
structure PolicyRule where
  auto_approve : Bool
deriving DecidableEq, Repr

/-- The auto-approval test of get_decision_queue: the decision's
severity must appear in policy severity_levels and its rules must set
auto_approve (missing key defaults to false). -/
def autoApprove (policy : List (String × PolicyRule)) (sev : String) : Bool :=
  match policy.lookup sev with
  | some r => r.auto_approve
  | none => false

/-- Optional severity filter of the queue query (WHERE d.severity =
severity when supplied). -/
def sevMatch (severity : Option String) (d : Decision) : Bool :=
  match severity with
  | none => true
  | some s => d.severity == s

/-- Insert a decision into a list sorted by ascending created_at. -/
def insertByCreated (d : Decision) : List Decision → List Decision
  | [] => [d]
  | e :: es =>
    if d.created_at ≤ e.created_at then d :: e :: es else e :: insertByCreated d es

/-- ORDER BY d.created_at ASC of the queue query, as an insertion
sort. -/
def sortByCreated : List Decision → List Decision
  | [] => []
  | d :: ds => insertByCreated d (sortByCreated ds)

/-- The read set of get_decision_queue: decisions still pending,
optionally filtered by severity, ordered by ascending creation time,
truncated to the limit. -/
def readPending (store : List Decision) (limit : Nat) (severity : Option String) :
    List Decision :=
  (sortByCreated (store.filter fun d => d.status == "pending" && sevMatch severity d)).take limit

/-- Iteration body of get_decision_queue over the fetched decisions:
with auto-apply on, a decision whose severity has an auto_approve rule
is resolved to auto_approved by actor policy (choice = its
recommendation) and skipped; every other decision is appended to the
returned queue. Returns the updated store and the queue. -/
def processQueue (policy : List (String × PolicyRule)) (auto_apply : Bool) :
    List Decision → List Decision → List Decision × List Decision
  | [], store => (store, [])
  | d :: ds, store =>
    if auto_apply && autoApprove policy d.severity then
      processQueue policy auto_apply ds
        (resolve_decision store d.id d.recommendation "auto_approved" "policy")
    else
      ((processQueue policy auto_apply ds store).1,
        d :: (processQueue policy auto_apply ds store).2)

/-- Neo4jConnector.get_decision_queue: fetch the pending decisions and
run the auto-approval pass over them. -/
def get_decision_queue (store : List Decision) (limit : Nat) (severity : Option String)
    (auto_apply : Bool) (policy : List (String × PolicyRule)) :
    List Decision × List Decision :=
  processQueue policy auto_apply (readPending store limit severity) store

/-- C8 counterexample: a pending decision resolved to approved by
actor policy and then resolved again to rejected by actor system ends
as rejected with choice RPA_Tool and resolver system — the second
resolution is not a no-op and the first terminal status does not
survive. -/
theorem c8_counterexample_double_resolution :
    resolve_decision
        (resolve_decision [⟨"d1", "a", "s", "API_Tool", "high", "pending", "", "", 0⟩]
          "d1" "API_Tool" "approved" "policy")
        "d1" "RPA_Tool" "rejected" "system"
      = [⟨"d1", "a", "s", "API_Tool", "high", "rejected", "RPA_Tool", "system", 0⟩]
    ∧ "rejected" ≠ "approved" := by
  constructor
  · rfl
  · decide

/-- C8 amended: resolve_decision is an unconditional overwrite, so on
any store a second resolution of the same decision id completely
replaces the first — last write wins, with no pending-status guard. -/
theorem c8_resolve_decision_last_write_wins (store : List Decision)
    (id c1 s1 r1 c2 s2 r2 : String) :
    resolve_decision (resolve_decision store id c1 s1 r1) id c2 s2 r2
      = resolve_decision store id c2 s2 r2 := by
  unfold resolve_decision
  rw [List.map_map]
  apply List.map_congr_left
  intro d _
  by_cases h : d.id = id <;> simp [h, setResolved]

/-- Inserting into a sorted-by-creation list is a permutation of
consing. -/
theorem insertByCreated_perm (d : Decision) (l : List Decision) :
    (insertByCreated d l).Perm (d :: l) := by
  induction l with
  | nil => exact List.Perm.refl _
  | cons e es ih =>
    unfold insertByCreated
    split
    · exact List.Perm.refl _
    · exact (List.Perm.cons e ih).trans (List.Perm.swap d e es)

/-- The creation-time sort permutes its input. -/
theorem sortByCreated_perm (l : List Decision) : (sortByCreated l).Perm l := by
  induction l with
  | nil => exact List.Perm.refl _
  | cons d ds ih =>
    exact (insertByCreated_perm d (sortByCreated ds)).trans (List.Perm.cons d ih)

/-- A decision fetched by the queue query is an element of the store
and still pending. -/
theorem mem_readPending (store : List Decision) (limit : Nat) (severity : Option String)
    (d : Decision) (hd : d ∈ readPending store limit severity) :
    d ∈ store ∧ d.status = "pending" := by
  have h1 : d ∈ sortByCreated
      (store.filter fun e => e.status == "pending" && sevMatch severity e) :=
    List.take_subset _ _ hd
  have h2 : d ∈ store.filter fun e => e.status == "pending" && sevMatch severity e :=
    (sortByCreated_perm _).mem_iff.mp h1
  refine ⟨List.mem_of_mem_filter h2, ?_⟩
  have h3 := List.of_mem_filter h2
  simp only [Bool.and_eq_true, beq_iff_eq] at h3
  exact h3.1

/-- resolve_decision leaves every record with a different id
untouched. -/
theorem resolve_keep_ne (store : List Decision) (id c s r : String) (e : Decision)
    (he : e ∈ store) (hne : e.id ≠ id) :
    e ∈ resolve_decision store id c s r :=
  List.mem_map.mpr ⟨e, he, by simp [hne]⟩

/-- resolve_decision rewrites every record carrying the matched id. -/
theorem resolve_mem_set (store : List Decision) (id c s r : String) (e : Decision)
    (he : e ∈ store) (heq : e.id = id) :
    setResolved e c s r ∈ resolve_decision store id c s r :=
  List.mem_map.mpr ⟨e, he, by simp [heq]⟩

/-- A store record whose id is named by no remaining fetched decision
survives the auto-approval pass unchanged. -/
theorem processQueue_store_keep (policy : List (String × PolicyRule)) (auto_apply : Bool)
    (R : List Decision) :
    ∀ (store : List Decision) (x : String) (y : Decision),
      (∀ e ∈ R, e.id ≠ x) → y ∈ store → y.id = x →
      y ∈ (processQueue policy auto_apply R store).1 := by
  induction R with
  | nil =>
    intro store x y _ hy _
    simpa [processQueue] using hy
  | cons e es ih =>
    intro store x y h hy hid
    have htail : ∀ f ∈ es, f.id ≠ x := fun f hf => h f (List.mem_cons_of_mem e hf)
    by_cases hcond : (auto_apply && autoApprove policy e.severity) = true
    · simp only [processQueue]
      rw [if_pos hcond]
      refine ih _ x y htail ?_ hid
      refine resolve_keep_ne _ _ _ _ _ y hy ?_
      rw [hid]
      exact fun hx => h e (List.mem_cons_self e es) hx.symm
    · simp only [processQueue]
      rw [if_neg hcond]
      exact ih store x y htail hy hid

/-- Every decision in the returned queue came from the fetched
list. -/
theorem processQueue_queue_subset (policy : List (String × PolicyRule)) (auto_apply : Bool)
    (R : List Decision) :
    ∀ (store : List Decision) (q : Decision),
      q ∈ (processQueue policy auto_apply R store).2 → q ∈ R := by
  induction R with
  | nil =>
    intro store q hq
    simp [processQueue] at hq
  | cons e es ih =>
    intro store q hq
    by_cases hcond : (auto_apply && autoApprove policy e.severity) = true
    · simp only [processQueue] at hq
      rw [if_pos hcond] at hq
      exact List.mem_cons_of_mem e (ih _ q hq)
    · simp only [processQueue] at hq
      rw [if_neg hcond] at hq
      rcases List.mem_cons.mp hq with h | h
      · exact h ▸ List.mem_cons_self e es
      · exact List.mem_cons_of_mem e (ih _ q h)

/-- A fetched decision whose severity has an auto-approve rule is
persisted as auto_approved by actor policy and its id is absent from
the returned queue (fetched ids assumed unique, as decision ids are
MERGE keys). -/
theorem processQueue_auto_resolves (policy : List (String × PolicyRule))
    (R : List Decision) :
    ∀ (store : List Decision) (d : Decision),
      (R.map Decision.id).Nodup → d ∈ R → d ∈ store →
      autoApprove policy d.severity = true →
      ((∃ e ∈ (processQueue policy true R store).1,
          e.id = d.id ∧ e.status = "auto_approved" ∧ e.resolved_by = "policy"
            ∧ e.choice = d.recommendation)
        ∧ d.id ∉ (processQueue policy true R store).2.map Decision.id) := by
  induction R with
  | nil =>
    intro store d _ hd
    exact absurd hd (List.not_mem_nil d)
  | cons e es ih =>
    intro store d hR hd hds hauto
    simp only [List.map_cons] at hR
    have hR' := List.nodup_cons.mp hR
    rcases List.mem_cons.mp hd with heq | hmem
    · subst heq
      have hcond : (true && autoApprove policy d.severity) = true := by simp [hauto]
      simp only [processQueue]
      rw [if_pos hcond]
      have hkeep : ∀ f ∈ es, f.id ≠ d.id := by
        intro f hf hfid
        exact hR'.1 (hfid ▸ List.mem_map_of_mem Decision.id hf)
      constructor
      · refine ⟨setResolved d d.recommendation "auto_approved" "policy", ?_, rfl, rfl, rfl, rfl⟩
        exact processQueue_store_keep policy true es _ d.id _ hkeep
          (resolve_mem_set store d.id d.recommendation "auto_approved" "policy" d hds rfl) rfl
      · intro hin
        rcases List.mem_map.mp hin with ⟨q, hq, hqid⟩
        have hq' : q ∈ es := processQueue_queue_subset policy true es _ q hq
        exact hR'.1 (hqid ▸ List.mem_map_of_mem Decision.id hq')
    · have hne : e.id ≠ d.id := by
        intro h
        exact hR'.1 (h ▸ List.mem_map_of_mem Decision.id hmem)
      by_cases hcond : (true && autoApprove policy e.severity) = true
      · simp only [processQueue]
        rw [if_pos hcond]
        refine ih _ d hR'.2 hmem ?_ hauto
        exact resolve_keep_ne store e.id e.recommendation "auto_approved" "policy" d hds
          (fun h => hne h.symm)
      · simp only [processQueue]
        rw [if_neg hcond]
        have hres := ih store d hR'.2 hmem hds hauto
        refine ⟨hres.1, ?_⟩
        simp only [List.map_cons, List.mem_cons]
        intro h
        rcases h with h | h
        · exact hne h.symm
        · exact hres.2 h

/-- A fetched decision whose severity carries no auto-approve rule is
kept in the returned queue. -/
theorem processQueue_keeps_manual (policy : List (String × PolicyRule))
    (R : List Decision) :
    ∀ (store : List Decision) (d : Decision),
      d ∈ R → autoApprove policy d.severity = false →
      d ∈ (processQueue policy true R store).2 := by
  induction R with
  | nil =>
    intro store d hd
    exact absurd hd (List.not_mem_nil d)
  | cons e es ih =>
    intro store d hd hman
    rcases List.mem_cons.mp hd with heq | hmem
    · subst heq
      have hcond : ¬ ((true && autoApprove policy d.severity) = true) := by simp [hman]
      simp only [processQueue]
      rw [if_neg hcond]
      exact List.mem_cons_self d _
    · by_cases hcond : (true && autoApprove policy e.severity) = true
      · simp only [processQueue]
        rw [if_pos hcond]
        exact ih _ d hmem hman
      · simp only [processQueue]
        rw [if_neg hcond]
        exact List.mem_cons_of_mem e (ih store d hmem hman)

/-- C2: for every decision fetched by get_decision_queue with
auto-apply enabled (pending, matching the severity filter, within the
limit; fetched ids unique), a severity with an auto_approve policy
rule makes the read transition the decision to status auto_approved
with resolver policy and choice its recommendation, and drops it from
the returned queue; a severity with no auto-approve rule leaves the
decision in the returned queue, still pending. -/
theorem c2_auto_approval_on_read (store : List Decision) (limit : Nat)
    (severity : Option String) (policy : List (String × PolicyRule)) (d : Decision)
    (hR : ((readPending store limit severity).map Decision.id).Nodup)
    (hd : d ∈ readPending store limit severity) :
    (autoApprove policy d.severity = true →
      (∃ e ∈ (get_decision_queue store limit severity true policy).1,
          e.id = d.id ∧ e.status = "auto_approved" ∧ e.resolved_by = "policy"
            ∧ e.choice = d.recommendation)
      ∧ d.id ∉ (get_decision_queue store limit severity true policy).2.map Decision.id)
    ∧ (autoApprove policy d.severity = false →
      d ∈ (get_decision_queue store limit severity true policy).2
      ∧ d.status = "pending") := by
  have hmem := mem_readPending store limit severity d hd
  constructor
  · intro hauto
    exact processQueue_auto_resolves policy (readPending store limit severity)
      store d hR hd hmem.1 hauto
  · intro hman
    exact ⟨processQueue_keeps_manual policy (readPending store limit severity)
      store d hd hman, hmem.2⟩

/-- Demo decision of high severity for the policy witness. -/
def dHigh : Decision := ⟨"dh", "a", "s", "API_Tool", "high", "pending", "", "", 0⟩

/-- Demo decision of low severity for the policy witness. -/
def dLow : Decision := ⟨"dl", "a", "s", "RPA_Tool", "low", "pending", "", "", 1⟩

/-- Demo store holding one high- and one low-severity pending
decision. -/
def demoStore : List Decision := [dHigh, dLow]

/-- Demo policy auto-approving high severity only. -/
def demoPolicy : List (String × PolicyRule) := [("high", ⟨true⟩)]

/-- C2 witness: on the demo store with policy high auto_approve, the
high-severity decision is persisted auto_approved by policy and
missing from the queue, while the low-severity decision is returned
still pending. -/
theorem c2_auto_approval_on_read_witness :
    ((∃ e ∈ (get_decision_queue demoStore 50 none true demoPolicy).1,
        e.id = dHigh.id ∧ e.status = "auto_approved" ∧ e.resolved_by = "policy"
          ∧ e.choice = dHigh.recommendation)
      ∧ dHigh.id ∉ (get_decision_queue demoStore 50 none true demoPolicy).2.map Decision.id)
    ∧ (dLow ∈ (get_decision_queue demoStore 50 none true demoPolicy).2
      ∧ dLow.status = "pending") :=
  ⟨(c2_auto_approval_on_read demoStore 50 none demoPolicy dHigh (by decide) (by decide)).1
      rfl,
    (c2_auto_approval_on_read demoStore 50 none demoPolicy dLow (by decide) (by decide)).2
      rfl⟩

/-- An outgoing edge is evaluated only when its target is present and
non-empty (if not target: continue) and names a node of the workflow
(if target not in workflow: continue); other edges are skipped with no
sample drawn. -/
def validEdge (wf : List (String × AgentNode)) (e : EdgeRec) : Bool :=
  match e.target with
  | none => false
  | some t => if t = "" then false else (wf.map Prod.fst).contains t

/-- Edge-evaluation loop of _run_agent_recursive: every valid edge
draws its own uniform sample (s i, where i counts samples drawn so
far) and fires iff the sample is strictly below the edge's
probability; fired targets are collected in edge order. Returns the
fired targets together with the updated sample counter. -/
def firedAux (wf : List (String × AgentNode)) (s : Nat → Rat) :
    List EdgeRec → Nat → List String × Nat
  | [], i => ([], i)
  | e :: es, i =>
    match e.target with
    | none => firedAux wf s es i
    | some t =>
      if t = "" then firedAux wf s es i
      else if (wf.map Prod.fst).contains t then
        if s i < edgeProb e then
          (t :: (firedAux wf s es (i + 1)).1, (firedAux wf s es (i + 1)).2)
        else firedAux wf s es (i + 1)
      else firedAux wf s es i

/-- Sequential join of the child tasks spawned for the fired targets:
run each in order, thread the sample counter, and succeed only when
every child completes (asyncio.gather waits for all of them). -/
def runMany (run1 : String → Nat → Option (List String × Nat)) :
    List String → Nat → Option (List String × Nat)
  | [], i => some ([], i)
  | t :: ts, i =>
    match run1 t i with
    | none => none
    | some (tr, i1) =>
      match runMany run1 ts i1 with
      | none => none
      | some (tr2, i2) => some (tr ++ tr2, i2)

/-- _run_agent_recursive with explicit fuel bounding the recursion
depth: a None agent id or an id missing from the workflow ends the
branch; otherwise the agent executes (its id is recorded), every
outgoing edge is evaluated independently, each fired target is run as
a child task, and the call returns only after all children have
returned. none means the recursion exhausted the fuel bound. -/
def runAgent (wf : List (String × AgentNode)) (s : Nat → Rat) :
    Nat → Option String → Nat → Option (List String × Nat)
  | 0, _, _ => none
  | _ + 1, none, i => some ([], i)
  | f + 1, some id, i =>
    match wf.lookup id with
    | none => some ([], i)
    | some agent =>
      match runMany (fun t j => runAgent wf s f (some t) j)
          (firedAux wf s agent.next i).1 (firedAux wf s agent.next i).2 with
      | none => none
      | some (tr, j) => some (id :: tr, j)

/-- Accumulator loop of Supervisor.choose_next: walk the edges
keeping the running total upto; the first edge whose cumulative
probability reaches the draw r wins and its target is returned; if no
edge reaches r the loop falls through to None. -/
def chooseNextAux (r : Rat) : List EdgeRec → Rat → Option String
  | [], _ => none
  | e :: es, upto =>
    if upto + edgeProb e ≥ r then e.target
    else chooseNextAux r es (upto + edgeProb e)

/-- Supervisor.choose_next: sum the edge probabilities, scale one
single uniform draw u by the total (r = random() * total_prob), and
select the one edge whose cumulative weight first reaches r — a
weighted-categorical choice of at most one successor, not a per-edge
Bernoulli evaluation. -/
def choose_next (edges : List EdgeRec) (u : Rat) : Option String :=
  chooseNextAux (u * (edges.map edgeProb).sum) edges 0

/-- choose_next never names more than one successor: its result is
none or the target of a single edge of the list. -/
theorem chooseNextAux_single_target (r : Rat) :
    ∀ (es : List EdgeRec) (upto : Rat),
      chooseNextAux r es upto = none
      ∨ ∃ e ∈ es, chooseNextAux r es upto = e.target := by
  intro es
  induction es with
  | nil => intro upto; exact Or.inl rfl
  | cons e es ih =>
    intro upto
    by_cases h : upto + edgeProb e ≥ r
    · refine Or.inr ⟨e, List.mem_cons_self e es, ?_⟩
      simp [chooseNextAux, h]
    · have hrec := ih (upto + edgeProb e)
      rcases hrec with hnone | ⟨f, hf, hfeq⟩
      · refine Or.inl ?_
        simpa [chooseNextAux, h] using hnone
      · refine Or.inr ⟨f, List.mem_cons_of_mem e hf, ?_⟩
        simpa [chooseNextAux, h] using hfeq

/-- list(workflow.keys())[0]: the first inserted key of the node
mapping. -/
def first_key (wf : List (String × AgentNode)) : Option String :=
  (wf.map Prod.fst).head?

/-- run_workflow: an empty workflow returns immediately; otherwise
traversal starts from the first inserted key of the mapping. -/
def run_workflow (wf : List (String × AgentNode)) (s : Nat → Rat) (fuel : Nat) :
    Option (List String × Nat) :=
  if wf.isEmpty then some ([], 0)
  else runAgent wf s fuel (first_key wf) 0

/-- The sample counter after the edge loop advances by exactly one
draw per valid edge. -/
theorem firedAux_snd (wf : List (String × AgentNode)) (s : Nat → Rat) :
    ∀ (es : List EdgeRec) (i : Nat),
      (firedAux wf s es i).2 = i + (es.filter (validEdge wf)).length := by
  intro es
  induction es with
  | nil => intro i; simp [firedAux]
  | cons e es ih =>
    intro i
    cases ht : e.target with
    | none =>
      have hv : validEdge wf e = false := by simp [validEdge, ht]
      simp only [firedAux, ht, List.filter_cons, hv]
      simp [ih i]
    | some t =>
      by_cases hemp : t = ""
      · have hv : validEdge wf e = false := by simp [validEdge, ht, hemp]
        simp only [firedAux, ht, List.filter_cons, hv]
        rw [if_pos hemp]
        simp [ih i]
      · by_cases hcont : ((wf.map Prod.fst).contains t) = true
        · have hv : validEdge wf e = true := by
            simp only [validEdge, ht]
            rw [if_neg hemp]
            exact hcont
          simp only [firedAux, ht]
          rw [if_neg hemp, if_pos hcont, List.filter_cons, if_pos hv]
          by_cases hfire : s i < edgeProb e
          · rw [if_pos hfire]
            show (firedAux wf s es (i + 1)).2 = i + (e :: es.filter (validEdge wf)).length
            rw [ih (i + 1), List.length_cons]
            omega
          · rw [if_neg hfire, ih (i + 1), List.length_cons]
            omega
        · have hv : validEdge wf e = false := by
            simp only [validEdge, ht]
            rw [if_neg hemp]
            simpa using hcont
          simp only [firedAux, ht]
          rw [if_neg hemp, if_neg hcont, List.filter_cons, if_neg (by simp [hv])]
          exact ih i

/-- Independent Bernoulli gates: the fired-target list is exactly the
valid edges, each paired with its own sample index, filtered by the
per-edge test sample < probability — the firing of each edge depends
only on its own sample, and the edges of one node are not a
categorical choice of a single target. -/
theorem firedAux_fst (wf : List (String × AgentNode)) (s : Nat → Rat) :
    ∀ (es : List EdgeRec) (i : Nat),
      (firedAux wf s es i).1
        = ((es.filter (validEdge wf)).enumFrom i).filterMap
            (fun p => if s p.1 < edgeProb p.2 then p.2.target else none) := by
  intro es
  induction es with
  | nil => intro i; simp [firedAux]
  | cons e es ih =>
    intro i
    cases ht : e.target with
    | none =>
      have hv : validEdge wf e = false := by simp [validEdge, ht]
      simp only [firedAux, ht, List.filter_cons, hv]
      simp [ih i]
    | some t =>
      by_cases hemp : t = ""
      · have hv : validEdge wf e = false := by simp [validEdge, ht, hemp]
        simp only [firedAux, ht, List.filter_cons, hv]
        rw [if_pos hemp]
        simp [ih i]
      · by_cases hcont : ((wf.map Prod.fst).contains t) = true
        · have hv : validEdge wf e = true := by
            simp only [validEdge, ht]
            rw [if_neg hemp]
            exact hcont
          simp only [firedAux, ht]
          rw [if_neg hemp, if_pos hcont, List.filter_cons, if_pos hv,
            List.enumFrom_cons, List.filterMap_cons]
          by_cases hfire : s i < edgeProb e
          · rw [if_pos hfire]
            show t :: (firedAux wf s es (i + 1)).1 = _
            rw [if_pos hfire, ht, ih (i + 1)]
          · rw [if_neg hfire]
            show (firedAux wf s es (i + 1)).1 = _
            rw [if_neg hfire, ih (i + 1)]
        · have hv : validEdge wf e = false := by
            simp only [validEdge, ht]
            rw [if_neg hemp]
            simpa using hcont
          simp only [firedAux, ht]
          rw [if_neg hemp, if_neg hcont, List.filter_cons, if_neg (by simp [hv])]
          exact ih i

/-- Demo fan-out node with two probability-one edges. -/
def nodeA : AgentNode := ⟨"A", some "A", none, [⟨some "B", some 1⟩, ⟨some "C", some 1⟩]⟩

/-- Demo leaf node B. -/
def nodeB : AgentNode := ⟨"B", some "B", none, []⟩

/-- Demo leaf node C. -/
def nodeC : AgentNode := ⟨"C", some "C", none, []⟩

/-- Demo diamond-free fan-out workflow A with edges to B and C. -/
def demoWf : List (String × AgentNode) := [("A", nodeA), ("B", nodeB), ("C", nodeC)]

/-- Sample stream whose first draw fires and whose later draws do
not. -/
def sFirst : Nat → Rat := fun n => if n == 0 then 0 else 1

/-- C1 counterexample: on the same two probability-one edges of the
demo node, the Supervisor's choose_next makes one categorical draw and
selects the single target B, while independent per-edge evaluation
fires both B and C — in a Supervisor traversal step a second edge of
probability 1 does not fire alongside the first, refuting the
independent-Bernoulli claim for that cited code path. -/
theorem c1_counterexample_supervisor_categorical :
    choose_next nodeA.next 0 = some "B"
    ∧ (firedAux demoWf (fun _ => 0) nodeA.next 0).1 = ["B", "C"]
    ∧ (["B", "C"] : List String) ≠ ["B"] := by
  refine ⟨?_, by decide, by decide⟩
  simp [choose_next, chooseNextAux, nodeA, edgeProb]

/-- C1 amended: in EnhancedOrchestrator, edges are independent
Bernoulli gates — each valid outgoing edge consumes its own sample and
fires iff that sample is strictly below its probability (the general
characterisation), so on the demo node zero, one, or both of the two
edges can fire under suitable samples, and one recursion step of the
traversal executes the node and then runs precisely the fired targets
as child tasks, returning only after all of them have completed; the
Supervisor's choose_next, by contrast, is a weighted-categorical
selection whose result is at most one edge's target, so no more than a
single successor is ever followed there. -/
theorem c1_independent_bernoulli_fork_join :
    (∀ (wf : List (String × AgentNode)) (s : Nat → Rat) (es : List EdgeRec) (i : Nat),
        firedAux wf s es i
          = (((es.filter (validEdge wf)).enumFrom i).filterMap
              (fun p => if s p.1 < edgeProb p.2 then p.2.target else none),
             i + (es.filter (validEdge wf)).length))
    ∧ (firedAux demoWf (fun _ => 1) nodeA.next 0).1 = []
    ∧ (firedAux demoWf sFirst nodeA.next 0).1 = ["B"]
    ∧ (firedAux demoWf (fun _ => 0) nodeA.next 0).1 = ["B", "C"]
    ∧ (∀ (wf : List (String × AgentNode)) (s : Nat → Rat) (f : Nat) (id : String)
        (i : Nat) (agent : AgentNode),
        wf.lookup id = some agent →
        runAgent wf s (f + 1) (some id) i
          = Option.map (fun p => (id :: p.1, p.2))
              (runMany (fun t j => runAgent wf s f (some t) j)
                (firedAux wf s agent.next i).1 (firedAux wf s agent.next i).2))
    ∧ (∀ (edges : List EdgeRec) (u : Rat),
        choose_next edges u = none
        ∨ ∃ e ∈ edges, choose_next edges u = e.target) := by
  refine ⟨?_, by decide, by decide, by decide, ?_, ?_⟩
  · intro wf s es i
    rw [Prod.ext_iff]
    exact ⟨firedAux_fst wf s es i, firedAux_snd wf s es i⟩
  · intro wf s f id i agent h
    simp only [runAgent, h]
    cases hr : runMany (fun t j => runAgent wf s f (some t) j)
        (firedAux wf s agent.next i).1 (firedAux wf s agent.next i).2 with
    | none => simp
    | some p => cases p; simp
  · intro edges u
    exact chooseNextAux_single_target (u * (edges.map edgeProb).sum) edges 0

/-- C1 witness: one step of the traversal on the demo workflow with
always-firing samples forks both fired targets and joins them. -/
theorem c1_independent_bernoulli_fork_join_witness :
    runAgent demoWf (fun _ => 0) 2 (some "A") 0
      = Option.map (fun p => ("A" :: p.1, p.2))
          (runMany (fun t j => runAgent demoWf (fun _ => 0) 1 (some t) j)
            (firedAux demoWf (fun _ => 0) nodeA.next 0).1
            (firedAux demoWf (fun _ => 0) nodeA.next 0).2) :=
  c1_independent_bernoulli_fork_join.2.2.2.2.1 demoWf (fun _ => 0) 1 "A" 0 nodeA rfl

/-- Demo worfklow pair: the same key-to-node mapping inserted in two
different orders. -/
def nodeA0 : AgentNode := ⟨"a", some "a", none, []⟩

/-- Second node of the insertion-order demo pair. -/
def nodeB0 : AgentNode := ⟨"b", some "b", none, []⟩

/-- The two-node mapping with key a inserted first. -/
def wfAB : List (String × AgentNode) := [("a", nodeA0), ("b", nodeB0)]

/-- The same two-node mapping with key b inserted first. -/
def wfBA : List (String × AgentNode) := [("b", nodeB0), ("a", nodeA0)]

/-- C6 counterexample: two workflows equal as key-to-node mappings
(same entries, both lookups agree) but inserted in different orders
start traversal at different nodes — the entry node is the first
inserted key, not an explicit designation, and is not independent of
insertion order. -/
theorem c6_counterexample_entry_depends_on_insertion_order :
    wfAB.Perm wfBA
    ∧ wfAB.lookup "a" = wfBA.lookup "a"
    ∧ wfAB.lookup "b" = wfBA.lookup "b"
    ∧ first_key wfAB = some "a"
    ∧ first_key wfBA = some "b"
    ∧ run_workflow wfAB (fun _ => 0) 1 = some (["a"], 0)
    ∧ run_workflow wfBA (fun _ => 0) 1 = some (["b"], 0)
    ∧ (some "a" : Option String) ≠ some "b" := by
  refine ⟨List.Perm.swap ("b", nodeB0) ("a", nodeA0) [], rfl, rfl, rfl, rfl, rfl, rfl, ?_⟩
  decide

/-- C6 amended: run_workflow starts traversal at the first inserted
key of the node mapping, so the starting node is determined by
insertion order rather than by an explicit entry designation in the
workflow data. -/
theorem c6_starts_at_first_inserted_key (k : String) (node : AgentNode)
    (rest : List (String × AgentNode)) (s : Nat → Rat) (fuel : Nat) :
    first_key ((k, node) :: rest) = some k
    ∧ run_workflow ((k, node) :: rest) s fuel
        = runAgent ((k, node) :: rest) s fuel (some k) 0 := by
  constructor
  · rfl
  · simp [run_workflow, first_key]

/-- Single node looping back to itself with probability 1. -/
def nodeLoop : AgentNode := ⟨"A", some "Loop", none, [⟨some "A", some 1⟩]⟩

/-- Workflow consisting of the self-loop node only. -/
def cycWf : List (String × AgentNode) := [("A", nodeLoop)]

/-- C7 counterexample: with the self-loop workflow and a sample stream
whose first draw fires, node A is executed a second time as a child
task spawned while its first execution is still active on the path —
there is no visited set, so an active node is re-entered. -/
theorem c7_counterexample_reentry :
    runAgent cycWf sFirst 3 (some "A") 0 = some (["A", "A"], 2)
    ∧ (["A", "A"] : List String) ≠ ["A"] := by
  constructor
  · decide
  · decide

/-- C7 amended: the traversal has no cycle guard; on a cyclic workflow
whose edge always fires, every recursion bound is exhausted — the
self-loop run never completes, whatever fuel it is given. -/
theorem c7_no_cycle_guard_unbounded (n i : Nat) :
    runAgent cycWf (fun _ => 0) n (some "A") i = none := by
  induction n generalizing i with
  | zero => rfl
  | succ f ih =>
    have hfired : firedAux cycWf (fun _ => 0) nodeLoop.next i = (["A"], i + 1) := by
      simp [firedAux, nodeLoop, cycWf, edgeProb]
    have hlook : cycWf.lookup "A" = some nodeLoop := rfl
    simp only [runAgent, hlook, hfired, runMany, ih]

end Agentic
